import Mathlib

/-!
Verification of the y-agent web client (browser UI for a chat-driven coding
agent).  The Lean definitions below are a shallow embedding of the TypeScript
components: pure list and string manipulation is translated directly, stateful
React callbacks become explicit functions from the relevant inputs to the new
state or to the emitted network request, and browser globals (the token store,
HTTP responses, SSE events) are modelled as explicit values.  JavaScript
details that matter are kept: Array.prototype.sort with a comparator is a
stable sort (mergeSort), String.prototype.indexOf returns -1 on a miss,
a string is truthy exactly when it is nonempty.
-/

namespace YAgent

/-! ### JavaScript string primitives used by the components -/

/-- JS s.startsWith(pre): pre is a prefix of s (on code points). -/
def jsStartsWith (s pre : String) : Bool :=
  pre.toList.isPrefixOf s.toList

/-- JS array indexOf: index of the first occurrence, or -1 when absent. -/
def jsIndexOf (l : List String) (x : String) : Int :=
  match l with
  | [] => -1
  | a :: rest =>
      if a = x then 0
      else
        let r := jsIndexOf rest x
        if r = -1 then -1 else r + 1

/-- JS array slice(s, e) for nonnegative bounds: elements s, ..., e - 1. -/
def jsSlice (l : List String) (s e : Int) : List String :=
  (l.drop s.toNat).take (e - s).toNat

/-- JS s.lastIndexOf("/"): index of the last slash, or -1 when there is none. -/
def jsLastIndexOfSlash (s : String) : Int :=
  match s.toList.reverse.findIdx? (fun c => c = '/') with
  | none => -1
  | some j => (s.toList.length : Int) - 1 - (j : Int)

/-- JS s.substring(0, e): the first e code points (negative e is clamped to 0). -/
def jsSubstring0 (s : String) (e : Int) : String :=
  String.mk (s.toList.take e.toNat)

/-! ### C2: the SWR list fetchers and 401 handling

The fetcher appears verbatim in ChatList.tsx, in the todo viewer
(src/unnamed/part_002) and in the calendar viewer (the calendar half of
MessageBubble.tsx): on status 401 it clears the token and throws
Unauthorized, otherwise it returns the parsed body. -/

/-- HTTP response as the fetchers see it: a status code and the JSON body,
kept opaque as text; res.json() returns that body. -/
structure Response where
  status : Nat
  body : String
deriving DecidableEq, Repr

/-- Modelled from the spec: clearToken lives in web/src/api.ts, which is not
under src/ (only its callers are).  Spec section 7 describes the behaviour as
401 leading to token clear, so clearing empties the optional token store. -/
def clearToken (_token : Option String) : Option String := none

/-- The chat list fetcher (ChatList.tsx and src/unnamed/part_004): returns the
token store after the call together with the outcome. -/
def fetcherChatList (res : Response) (token : Option String) :
    Option String × Except String String :=
  if res.status = 401 then (clearToken token, Except.error "Unauthorized")
  else (token, Except.ok res.body)

/-- The todo list fetcher (src/unnamed/part_002), textually identical. -/
def fetcherTodoList (res : Response) (token : Option String) :
    Option String × Except String String :=
  if res.status = 401 then (clearToken token, Except.error "Unauthorized")
  else (token, Except.ok res.body)

/-- The calendar list fetcher (calendar viewer), textually identical. -/
def fetcherCalendarList (res : Response) (token : Option String) :
    Option String × Except String String :=
  if res.status = 401 then (clearToken token, Except.error "Unauthorized")
  else (token, Except.ok res.body)

/-! ### C10: chat list pagination keys -/

/-- Chat DTO as declared in the chat list components. -/
structure Chat where
  chat_id : String
  title : Option String := none
  created_at : Option String := none
  updated_at : Option String := none
deriving DecidableEq, Repr

/-- Page size of the infinite chat list (src/unnamed/part_004). -/
def PAGE_SIZE : Nat := 50

/-- getKey from src/unnamed/part_004: the SWR-infinite key builder.  A null
previousPageData (first fetch of that page) is falsy in JS, so the short-page
check only fires when the previous page is present. -/
def getKey (isLoggedIn : Bool) (api queryParam : String) (pageIndex : Nat)
    (previousPageData : Option (List Chat)) : Option String :=
  if isLoggedIn = false then none
  else
    match previousPageData with
    | some prev =>
        if prev.length < PAGE_SIZE then none
        else
          some (api ++ "/api/chat/list?offset=" ++ toString (pageIndex * PAGE_SIZE) ++
            "&limit=" ++ toString PAGE_SIZE ++ queryParam)
    | none =>
        some (api ++ "/api/chat/list?offset=" ++ toString (pageIndex * PAGE_SIZE) ++
          "&limit=" ++ toString PAGE_SIZE ++ queryParam)

/-! ### C8: upload size limit -/

/-- Upload limit constant from src/unnamed/part_006. -/
def MAX_UPLOAD_BYTES : Nat := 50 * 1024 * 1024

/-- A file picked in the upload input: its name and its size in bytes. -/
structure UploadFile where
  name : String
  size : Nat
deriving DecidableEq, Repr

/-- One POST to /api/file/upload: the FormData fields of handleUpload. -/
structure UploadRequest where
  file : UploadFile
  dest_dir : String
  vm_name : Option String
deriving DecidableEq, Repr

/-- One iteration of the for loop in handleUpload: an oversize file only adds
an alert, any other file appends an upload request with dest_dir ".". -/
def uploadStep (vmName : Option String)
    (acc : List String × List UploadRequest) (file : UploadFile) :
    List String × List UploadRequest :=
  if MAX_UPLOAD_BYTES < file.size then
    (acc.1 ++ [file.name ++ " exceeds 50 MB limit"], acc.2)
  else
    (acc.1, acc.2 ++ [{ file := file, dest_dir := ".", vm_name := vmName }])

/-- handleUpload from src/unnamed/part_006, restricted to its observable
effects: the alerts raised and the upload requests issued, in order. -/
def handleUpload (files : List UploadFile) (vmName : Option String) :
    List String × List UploadRequest :=
  files.foldl (uploadStep vmName) ([], [])

theorem handleUpload_foldl (vmName : Option String) :
    ∀ (files : List UploadFile) (a1 : List String) (a2 : List UploadRequest),
      files.foldl (uploadStep vmName) (a1, a2) =
        (a1 ++ (files.filter (fun f => MAX_UPLOAD_BYTES < f.size)).map
            (fun f => f.name ++ " exceeds 50 MB limit"),
         a2 ++ (files.filter (fun f => f.size ≤ MAX_UPLOAD_BYTES)).map
            (fun f => { file := f, dest_dir := ".", vm_name := vmName })) := by
  intro files
  induction files with
  | nil => intro a1 a2; simp
  | cons f rest ih =>
      intro a1 a2
      by_cases h : MAX_UPLOAD_BYTES < f.size
      · have hne : ¬ f.size ≤ MAX_UPLOAD_BYTES := by omega
        simp [uploadStep, h, hne, ih, List.filter_cons]
      · have hle : f.size ≤ MAX_UPLOAD_BYTES := by omega
        simp [uploadStep, h, hle, ih, List.filter_cons]

/-- C8: an upload request is issued for a selected file iff its size does not
exceed 50 * 1024 * 1024 bytes; every strictly larger file raises an alert and
is never sent, while the remaining files of the same selection are still
uploaded (the surviving requests are exactly the size-filtered selection, in
order). -/
theorem upload_size_limit (files : List UploadFile) (vmName : Option String) :
    (handleUpload files vmName).2 =
      (files.filter (fun f => f.size ≤ MAX_UPLOAD_BYTES)).map
        (fun f => { file := f, dest_dir := ".", vm_name := vmName }) ∧
    (handleUpload files vmName).1 =
      (files.filter (fun f => MAX_UPLOAD_BYTES < f.size)).map
        (fun f => f.name ++ " exceeds 50 MB limit") ∧
    ∀ f ∈ files,
      ((∃ r ∈ (handleUpload files vmName).2, r.file = f) ↔
        f.size ≤ 50 * 1024 * 1024) := by
  have h := handleUpload_foldl vmName files [] []
  simp only [handleUpload, h, List.nil_append]
  refine ⟨by trivial, by trivial, ?_⟩
  intro f hf
  constructor
  · rintro ⟨r, hr, hrf⟩
    simp only [List.mem_map, List.mem_filter, decide_eq_true_eq] at hr
    obtain ⟨g, ⟨_, hg⟩, hgr⟩ := hr
    have : r.file = g := by rw [← hgr]
    rw [hrf] at this
    subst this
    exact hg
  · intro hsize
    refine ⟨{ file := f, dest_dir := ".", vm_name := vmName }, ?_, rfl⟩
    simp only [List.mem_map, List.mem_filter, decide_eq_true_eq]
    exact ⟨f, ⟨hf, hsize⟩, rfl⟩

/-- Witness for upload_size_limit at a two-file selection, one of them a byte
over the limit. -/
theorem upload_size_limit_witness :
    (⟨"small.txt", 10⟩ : UploadFile) ∈
        [(⟨"small.txt", 10⟩ : UploadFile), ⟨"big.bin", 52428801⟩] ∧
    ((∃ r ∈ (handleUpload [(⟨"small.txt", 10⟩ : UploadFile),
        ⟨"big.bin", 52428801⟩] none).2, r.file = (⟨"small.txt", 10⟩ : UploadFile)) ↔
      (10 : Nat) ≤ 50 * 1024 * 1024) :=
  ⟨by decide,
    (upload_size_limit [⟨"small.txt", 10⟩, ⟨"big.bin", 52428801⟩] none).2.2
      ⟨"small.txt", 10⟩ (by decide)⟩

/-- C2: on a 401 response every list fetcher clears the token and throws
Unauthorized; on any other status the token store is untouched and the parsed
body is returned. -/
theorem fetcher_401_clears_token (res : Response) (token : Option String) :
    (res.status = 401 →
      fetcherChatList res token = (none, Except.error "Unauthorized") ∧
      fetcherTodoList res token = (none, Except.error "Unauthorized") ∧
      fetcherCalendarList res token = (none, Except.error "Unauthorized")) ∧
    (res.status ≠ 401 →
      fetcherChatList res token = (token, Except.ok res.body) ∧
      fetcherTodoList res token = (token, Except.ok res.body) ∧
      fetcherCalendarList res token = (token, Except.ok res.body)) := by
  constructor
  · intro h
    simp [fetcherChatList, fetcherTodoList, fetcherCalendarList, clearToken, h]
  · intro h
    simp [fetcherChatList, fetcherTodoList, fetcherCalendarList, h]

/-- Witness for fetcher_401_clears_token at a concrete 401 response. -/
theorem fetcher_401_clears_token_witness :
    fetcherChatList ⟨401, "ignored"⟩ (some "tok") =
      (none, Except.error "Unauthorized") :=
  ((fetcher_401_clears_token ⟨401, "ignored"⟩ (some "tok")).1 rfl).1

/-- C10: once a fetched page is shorter than PAGE_SIZE the key for the next
page is null, so no request URL is produced after a short page; every URL
that is produced uses offset pageIndex * 50 and limit 50. -/
theorem chat_pagination_stops (isLoggedIn : Bool) (api queryParam : String)
    (pageIndex : Nat) :
    (∀ prev : List Chat, prev.length < PAGE_SIZE →
      getKey isLoggedIn api queryParam pageIndex (some prev) = none) ∧
    (∀ (prevData : Option (List Chat)) (url : String),
      getKey isLoggedIn api queryParam pageIndex prevData = some url →
      url = api ++ "/api/chat/list?offset=" ++ toString (pageIndex * 50) ++
        "&limit=" ++ toString (50 : Nat) ++ queryParam) := by
  constructor
  · intro prev hshort
    cases isLoggedIn with
    | false => simp [getKey]
    | true => simp [getKey, hshort]
  · intro prevData url h
    cases isLoggedIn with
    | false => simp [getKey] at h
    | true =>
        cases prevData with
        | none =>
            simp only [getKey, PAGE_SIZE] at h
            simp at h
            exact h.symm
        | some prev =>
            simp only [getKey, PAGE_SIZE] at h
            by_cases hlen : prev.length < 50
            · simp [hlen] at h
            · simp [hlen] at h
              exact h.symm

/-- Witness for chat_pagination_stops: a 3-chat page stops pagination, and a
produced first-page URL has offset 0 and limit 50. -/
theorem chat_pagination_stops_witness :
    getKey true "https://api" "" 1
        (some [⟨"c1", none, none, none⟩, ⟨"c2", none, none, none⟩,
          ⟨"c3", none, none, none⟩]) = none ∧
    "https://api/api/chat/list?offset=0&limit=50" =
      "https://api" ++ "/api/chat/list?offset=" ++ toString (0 * 50) ++
        "&limit=" ++ toString (50 : Nat) ++ "" :=
  ⟨(chat_pagination_stops true "https://api" "" 1).1 _ (by decide),
   (chat_pagination_stops true "https://api" "" 0).2 none
      "https://api/api/chat/list?offset=0&limit=50" rfl⟩

/-! ### C1: incremental reconciliation of tool messages in the chat view -/

/-- Chat message in the view state (the Message interface of MessageList).
Tool arguments are kept opaque as their JSON text. -/
structure Message where
  role : String
  content : String
  toolName : Option String := none
  arguments : Option String := none
  toolCallId : Option String := none
  timestamp : Option String := none
deriving DecidableEq, Repr

/-- updateToolMessage from ChatView: map over the message list, merging the
updates (here always role and content) into every message whose toolCallId
matches the given id. -/
def updateToolMessage (messages : List Message) (toolCallId : String)
    (newRole newContent : String) : List Message :=
  messages.map fun m =>
    if m.toolCallId = some toolCallId then
      { m with role := newRole, content := newContent }
    else m

/-- JS truthiness of the optional tool_call_id: present and nonempty. -/
def truthy (s : Option String) : Bool :=
  match s with
  | none => false
  | some v => v ≠ ""

/-- Role given to an incoming tool event: tool_denied exactly when the content
starts with the denial marker, tool_result otherwise. -/
def toolResultRole (content : String) : String :=
  if jsStartsWith content "ERROR: User denied" then "tool_denied" else "tool_result"

/-- The role "tool" branch of handleMessage inside connectSSE (ChatView and
src/unnamed/part_007): with a truthy tool_call_id the list is updated in
place, otherwise a fresh tool message is appended. -/
def handleToolEvent (messages : List Message) (tcId : Option String)
    (content : String) (tool args timestamp : Option String) : List Message :=
  if truthy tcId then
    updateToolMessage messages (tcId.getD "") (toolResultRole content) content
  else
    messages ++
      [{ role := toolResultRole content, content := content, toolName := tool,
         arguments := args, toolCallId := none, timestamp := timestamp }]

/-- C1: a role "tool" event with a tool_call_id updates the message list in
place: length and order are preserved, the messages carrying that id get role
tool_denied iff the content starts with the denial marker (tool_result
otherwise) and their content replaced, all other messages are untouched, and
nothing is appended; an event without a tool_call_id appends one new
tool_result or tool_denied message instead. -/
theorem tool_event_reconciliation (messages : List Message) (id content : String)
    (tool args timestamp : Option String) (hid : id ≠ "") :
    (handleToolEvent messages (some id) content tool args timestamp).length =
      messages.length ∧
    (∀ (k : Nat) (m : Message), messages[k]? = some m →
      (m.toolCallId = some id →
        (handleToolEvent messages (some id) content tool args timestamp)[k]? =
          some { m with role := toolResultRole content, content := content }) ∧
      (m.toolCallId ≠ some id →
        (handleToolEvent messages (some id) content tool args timestamp)[k]? =
          some m)) ∧
    (toolResultRole content = "tool_denied" ↔
      jsStartsWith content "ERROR: User denied" = true) ∧
    handleToolEvent messages none content tool args timestamp =
      messages ++
        [{ role := toolResultRole content, content := content, toolName := tool,
           arguments := args, toolCallId := none, timestamp := timestamp }] := by
  have htr : truthy (some id) = true := by simp [truthy, hid]
  refine ⟨?_, ?_, ?_, ?_⟩
  · simp [handleToolEvent, htr, updateToolMessage]
  · intro k m hk
    simp only [handleToolEvent, htr, if_true, updateToolMessage, Option.getD,
      List.getElem?_map, hk, Option.map_some]
    constructor
    · intro hmatch
      simp [hmatch]
    · intro hmiss
      simp [hmiss]
  · unfold toolResultRole
    by_cases h : jsStartsWith content "ERROR: User denied" = true
    · simp [h]
    · simp only [Bool.not_eq_true] at h
      simp [h]
  · simp [handleToolEvent, truthy]

/-- A pending tool-call message used to exercise the reconciliation. -/
def pendingDemo : Message :=
  { role := "tool_pending", content := "", toolCallId := some "call1" }

/-- Witness for tool_event_reconciliation: a one-message list holding the
pending tool call, updated in place by a denial event. -/
theorem tool_event_reconciliation_witness :
    (handleToolEvent [pendingDemo] (some "call1") "ERROR: User denied tool call"
        none none none)[0]? =
      some { pendingDemo with
              role := toolResultRole "ERROR: User denied tool call",
              content := "ERROR: User denied tool call" } :=
  ((tool_event_reconciliation [pendingDemo] "call1"
      "ERROR: User denied tool call" none none none (by decide)).2.1 0
    pendingDemo rfl).1 rfl

/-! ### C6: the SSE stream URL and the resume index -/

/-- One SSE chat event as handleMessage sees it, reduced to the only field
that drives the resume index: the optional index. -/
structure SSEEvent where
  index : Option Nat
deriving DecidableEq, Repr

/-- The index update in handleMessage:
idxRef.current = (evt.index ?? idxRef.current) + 1. -/
def nextIdx (cur : Nat) (evt : SSEEvent) : Nat := evt.index.getD cur + 1

/-- Resume index after a run of processed events. -/
def processEvents (startIdx : Nat) (events : List SSEEvent) : Nat :=
  events.foldl nextIdx startIdx

/-- URL opened by connectSSE; the token query parameter is passed through as
an already-encoded suffix (empty when there is no stored token). -/
def connectSSEUrl (api chatId : String) (fromIndex : Nat) (tokenParam : String) :
    String :=
  api ++ "/api/chat/messages?chat_id=" ++ chatId ++ "&last_index=" ++
    toString fromIndex ++ tokenParam

/-- URL of the reconnect performed by sendFollowUp:
connectSSE(chatId, idxRef.current). -/
def sendFollowUpUrl (api chatId : String) (startIdx : Nat)
    (events : List SSEEvent) (tokenParam : String) : String :=
  connectSSEUrl api chatId (processEvents startIdx events) tokenParam

/-- C6: the chat stream is consumed from /api/chat/messages with chat_id and
last_index parameters; after an event carrying index i the resume index is
i + 1, an event without an index advances the resume index by one, and the
follow-up reconnect asks for last_index one past the last processed index. -/
theorem sse_resume_index (api chatId tokenParam : String) (startIdx : Nat)
    (events : List SSEEvent) (e : SSEEvent) :
    (∀ i, e.index = some i →
      processEvents startIdx (events ++ [e]) = i + 1 ∧
      sendFollowUpUrl api chatId startIdx (events ++ [e]) tokenParam =
        api ++ "/api/chat/messages?chat_id=" ++ chatId ++ "&last_index=" ++
          toString (i + 1) ++ tokenParam) ∧
    (e.index = none →
      processEvents startIdx (events ++ [e]) =
        processEvents startIdx events + 1) ∧
    connectSSEUrl api chatId startIdx tokenParam =
      api ++ "/api/chat/messages?chat_id=" ++ chatId ++ "&last_index=" ++
        toString startIdx ++ tokenParam := by
  refine ⟨?_, ?_, rfl⟩
  · intro i hi
    have h1 : processEvents startIdx (events ++ [e]) = i + 1 := by
      simp [processEvents, List.foldl_append, nextIdx, hi]
    exact ⟨h1, by simp [sendFollowUpUrl, h1, connectSSEUrl]⟩
  · intro hnone
    simp [processEvents, List.foldl_append, nextIdx, hnone]

/-- Witness for sse_resume_index: two events, the last carrying index 4, give
resume index 5 and a reconnect URL asking for last_index 5. -/
theorem sse_resume_index_witness :
    (⟨some 4⟩ : SSEEvent).index = some 4 ∧
    processEvents 0 ([⟨some 0⟩] ++ [⟨some 4⟩]) = 5 :=
  ⟨rfl, ((sse_resume_index "https://api" "c1" "" 0 [⟨some 0⟩] ⟨some 4⟩).1 4
    rfl).1⟩

/-! ### C5: drag-and-drop move requests in the file tree -/

/-- Destination directory at a tree node: the node itself for a directory,
else its parent via substring(0, lastIndexOf slash). -/
def destDirOf (isDir : Bool) (path : String) : String :=
  if isDir then path else jsSubstring0 path (jsLastIndexOfSlash path)

/-- Body of the /api/file/move POST issued by handleDrop. -/
structure MoveRequest where
  sources : List String
  dest_dir : String
deriving DecidableEq, Repr

/-- The filter applied to the dragged paths in handleDrop:
s !== path and not destDir.startsWith(s + "/"). -/
def dropFilter (path destDir : String) (s : String) : Bool :=
  decide (s ≠ path) && ! jsStartsWith destDir (s ++ "/")

/-- handleDrop from the file tree (src/unnamed/part_006 and FileTree.tsx):
filter the dragged paths, and issue no request when nothing survives. -/
def handleDrop (sources : List String) (isDir : Bool) (path : String) :
    Option MoveRequest :=
  let destDir := destDirOf isDir path
  let valid := sources.filter (dropFilter path destDir)
  if valid = [] then none else some ⟨valid, destDir⟩

/-- C5 counterexample: dropping directory a/b onto the file a/b/c.txt inside
it computes destination a/b and still issues a move request whose sources
contain a/b with dest_dir a/b, so a directory is requested to move into
itself, against the parenthetical safety statement of the claim. -/
theorem drag_drop_self_move_counterexample :
    handleDrop ["a/b"] false "a/b/c.txt" =
      some { sources := ["a/b"], dest_dir := "a/b" } ∧
    destDirOf false "a/b/c.txt" = "a/b" := by
  constructor <;> decide

/-- C5 amended: the move request sources are exactly the dragged paths s with
s different from the drop target path and with the destination not starting
with s followed by a slash, and no request is issued when nothing survives
the filter; hence the destination is never a strict descendant of a surviving
source, but a drop onto a file inside a dragged directory may still request
moving that directory into itself (destination equal to the source). -/
theorem drag_drop_filter (sources : List String) (isDir : Bool) (path : String) :
    (handleDrop sources isDir path = none ↔
      sources.filter (dropFilter path (destDirOf isDir path)) = []) ∧
    (∀ req, handleDrop sources isDir path = some req →
      req.dest_dir = destDirOf isDir path ∧
      req.sources = sources.filter (dropFilter path (destDirOf isDir path)) ∧
      ∀ s ∈ req.sources, s ≠ path ∧
        jsStartsWith (destDirOf isDir path) (s ++ "/") = false) := by
  constructor
  · unfold handleDrop
    by_cases h : sources.filter (dropFilter path (destDirOf isDir path)) = []
    · simp [h]
    · simp [h]
  · intro req hreq
    unfold handleDrop at hreq
    by_cases h : sources.filter (dropFilter path (destDirOf isDir path)) = []
    · simp [h] at hreq
    · simp only [h, if_neg, if_false] at hreq
      have hreq' : req = ⟨sources.filter (dropFilter path (destDirOf isDir path)),
          destDirOf isDir path⟩ := by
        cases hreq; rfl
      subst hreq'
      refine ⟨rfl, rfl, ?_⟩
      intro s hs
      have hmem := List.of_mem_filter hs
      unfold dropFilter at hmem
      simp only [Bool.and_eq_true, decide_eq_true_eq, Bool.not_eq_true'] at hmem
      exact hmem

/-- Witness for drag_drop_filter: dropping b.txt and dir onto the directory
dest keeps both sources and records the filter facts. -/
theorem drag_drop_filter_witness :
    handleDrop ["b.txt", "dir"] true "dest" =
      some { sources := ["b.txt", "dir"], dest_dir := "dest" } ∧
    ∀ req, handleDrop ["b.txt", "dir"] true "dest" = some req →
      req.dest_dir = destDirOf true "dest" :=
  ⟨by decide, fun req hreq =>
    ((drag_drop_filter ["b.txt", "dir"] true "dest").2 req hreq).1⟩

/-! ### C4: shift-click range selection in the file tree -/

/-- Unfolding of jsIndexOf on a nonempty list, with the let inlined. -/
theorem jsIndexOf_cons (a x : String) (rest : List String) :
    jsIndexOf (a :: rest) x =
      if a = x then 0
      else if jsIndexOf rest x = -1 then -1 else jsIndexOf rest x + 1 := rfl

/-- jsIndexOf never returns anything below -1. -/
theorem jsIndexOf_ge_neg_one (x : String) :
    ∀ l : List String, -1 ≤ jsIndexOf l x := by
  intro l
  induction l with
  | nil => simp [jsIndexOf]
  | cons a rest ih =>
      rw [jsIndexOf_cons]
      by_cases h : a = x
      · simp [h]
      · simp only [h, if_false]
        by_cases hr : jsIndexOf rest x = -1
        · simp [hr]
        · simp only [hr, if_false]
          omega

/-- jsIndexOf returns -1 exactly on a miss. -/
theorem jsIndexOf_eq_neg_one (x : String) :
    ∀ l : List String, jsIndexOf l x = -1 ↔ x ∉ l := by
  intro l
  induction l with
  | nil => simp [jsIndexOf]
  | cons a rest ih =>
      rw [jsIndexOf_cons, List.mem_cons]
      by_cases h : a = x
      · subst h
        simp
      · simp only [h, if_false]
        by_cases hr : jsIndexOf rest x = -1
        · have hnr : x ∉ rest := ih.mp hr
          rw [if_pos hr]
          constructor
          · intro _ hc
            rcases hc with hc | hc
            · exact h hc.symm
            · exact hnr hc
          · intro _
            rfl
        · have hge := jsIndexOf_ge_neg_one x rest
          have hxr : x ∈ rest := by
            by_contra hnot
            exact hr (ih.mpr hnot)
          rw [if_neg hr]
          constructor
          · intro hcon
            exfalso
            omega
          · intro hc
            exact absurd (Or.inr hxr) hc

/-- On a hit, jsIndexOf agrees with List.indexOf. -/
theorem jsIndexOf_of_mem (x : String) :
    ∀ l : List String, x ∈ l → jsIndexOf l x = (l.indexOf x : Int) := by
  intro l
  induction l with
  | nil => intro h; simp at h
  | cons a rest ih =>
      intro hmem
      rw [jsIndexOf_cons]
      by_cases h : a = x
      · subst h
        simp [List.indexOf_cons]
      · have hmem' : x ∈ rest := by
          rcases List.mem_cons.mp hmem with h1 | h1
          · exact absurd h1.symm h
          · exact h1
        have hne : jsIndexOf rest x ≠ -1 := fun hcon =>
          ((jsIndexOf_eq_neg_one x rest).mp hcon) hmem'
        have hbeq : (a == x) = false := by
          simp [h]
        rw [if_neg h, if_neg hne, ih hmem', List.indexOf_cons, hbeq]
        simp only [cond_false]
        push_cast
        ring

/-- onRangeSelect from the file tree: with no anchor, or when the anchor or
target is missing from the visible order, select only the target; otherwise
select the slice between the two positions. -/
def onRangeSelect (anchor : Option String) (visible : List String)
    (path : String) : List String :=
  match anchor with
  | none => [path]
  | some a =>
      let anchorIdx := jsIndexOf visible a
      let targetIdx := jsIndexOf visible path
      if anchorIdx = -1 ∨ targetIdx = -1 then [path]
      else
        jsSlice visible (min anchorIdx targetIdx) (max anchorIdx targetIdx + 1)

/-- C4: with an anchor a and target p both in the visible order, shift-click
selects exactly the contiguous inclusive block of visible paths between the
positions of a and p, in either direction; with no anchor, or with a or p not
visible, it selects only p. -/
theorem range_selection (visible : List String) (anchor : Option String)
    (path : String) :
    (anchor = none → onRangeSelect anchor visible path = [path]) ∧
    (∀ a, anchor = some a → (a ∉ visible ∨ path ∉ visible) →
      onRangeSelect anchor visible path = [path]) ∧
    (∀ a, anchor = some a → a ∈ visible → path ∈ visible →
      onRangeSelect anchor visible path =
        (visible.drop (min (visible.indexOf a) (visible.indexOf path))).take
          (max (visible.indexOf a) (visible.indexOf path) + 1 -
            min (visible.indexOf a) (visible.indexOf path))) := by
  refine ⟨?_, ?_, ?_⟩
  · intro h; subst h; rfl
  · intro a ha hmiss
    subst ha
    have : jsIndexOf visible a = -1 ∨ jsIndexOf visible path = -1 := by
      rcases hmiss with hm | hm
      · exact Or.inl ((jsIndexOf_eq_neg_one a visible).mpr hm)
      · exact Or.inr ((jsIndexOf_eq_neg_one path visible).mpr hm)
    simp [onRangeSelect, this]
  · intro a ha hma hmp
    subst ha
    have hia := jsIndexOf_of_mem a visible hma
    have hip := jsIndexOf_of_mem path visible hmp
    have hnea : jsIndexOf visible a ≠ -1 := fun hcon =>
      ((jsIndexOf_eq_neg_one a visible).mp hcon) hma
    have hnep : jsIndexOf visible path ≠ -1 := fun hcon =>
      ((jsIndexOf_eq_neg_one path visible).mp hcon) hmp
    simp only [onRangeSelect, hnea, hnep, or_self, if_false]
    rw [hia, hip]
    unfold jsSlice
    rw [← Nat.cast_min, ← Nat.cast_max]
    have h2 : ((min (visible.indexOf a) (visible.indexOf path) : Nat) : Int).toNat =
        min (visible.indexOf a) (visible.indexOf path) := by omega
    have h1 : (((max (visible.indexOf a) (visible.indexOf path) : Nat) : Int) + 1 -
        ((min (visible.indexOf a) (visible.indexOf path) : Nat) : Int)).toNat =
        max (visible.indexOf a) (visible.indexOf path) + 1 -
          min (visible.indexOf a) (visible.indexOf path) := by omega
    rw [h1, h2]

/-- Witness for range_selection: anchor x, target z, visible order
[w, x, y, z, v] selects the inclusive block [x, y, z]. -/
theorem range_selection_witness :
    "x" ∈ ["w", "x", "y", "z", "v"] ∧
    onRangeSelect (some "x") ["w", "x", "y", "z", "v"] "z" =
      (["w", "x", "y", "z", "v"].drop
          (min (["w", "x", "y", "z", "v"].indexOf "x")
            (["w", "x", "y", "z", "v"].indexOf "z"))).take
        (max (["w", "x", "y", "z", "v"].indexOf "x")
            (["w", "x", "y", "z", "v"].indexOf "z") + 1 -
          min (["w", "x", "y", "z", "v"].indexOf "x")
            (["w", "x", "y", "z", "v"].indexOf "z")) :=
  ⟨by decide,
    (range_selection ["w", "x", "y", "z", "v"] (some "x") "z").2.2 "x" rfl
      (by decide) (by decide)⟩

/-! ### C7: file entry lists and their display order -/

/-- The two entry types of the FileEntry DTO. -/
inductive EntryType where
  | file
  | directory
deriving DecidableEq, Repr

/-- FileEntry DTO as declared in the file tree components. -/
structure FileEntry where
  name : String
  type : EntryType
deriving DecidableEq, Repr

/-- JS String.prototype.localeCompare, modelled as code-point order (the
names compared in this repository are plain ASCII): -1, 0 or 1. -/
def localeCompare (a b : String) : Int :=
  if a < b then -1 else if a = b then 0 else 1

/-- The comparator passed to sort in loadChildren and loadRoot: directories
before files, then by name. -/
def entryCmp (a b : FileEntry) : Int :=
  if a.type ≠ b.type then (if a.type = EntryType.directory then -1 else 1)
  else localeCompare a.name b.name

/-- JS Array.prototype.sort with a comparator: a stable sort putting a before
b whenever the comparator is nonpositive; modelled with mergeSort. -/
def sortEntries (entries : List FileEntry) : List FileEntry :=
  entries.mergeSort fun a b => decide (entryCmp a b ≤ 0)

/-- Entry list the file tree stores and renders for one /api/file/list
response: both loadRoot and loadChildren sort before calling setState. -/
def displayedEntries (entries : List FileEntry) : List FileEntry :=
  sortEntries entries

/-- Priority used by the comparator: directories first. -/
def rankOf : EntryType → Nat
  | EntryType.directory => 0
  | EntryType.file => 1

theorem entryCmp_le_iff (a b : FileEntry) :
    entryCmp a b ≤ 0 ↔
      (rankOf a.type < rankOf b.type ∨
        (rankOf a.type = rankOf b.type ∧ a.name ≤ b.name)) := by
  cases hta : a.type <;> cases htb : b.type <;>
    simp only [entryCmp, localeCompare, rankOf, hta, htb, ne_eq,
      reduceCtorEq, not_true_eq_false, not_false_eq_true, if_true, if_false,
      ite_true, ite_false]
  · rcases lt_trichotomy a.name b.name with h | h | h
    · simp [h, le_of_lt h]
    · have h1 : ¬ a.name < b.name := by rw [h]; exact lt_irrefl _
      simp [h1, h, le_of_eq h]
    · have h1 : ¬ a.name < b.name := asymm h
      have h2 : a.name ≠ b.name := (ne_of_lt h).symm
      have h3 : ¬ a.name ≤ b.name := not_le_of_lt h
      simp [h1, h2, h3]
  · norm_num
  · norm_num
  · rcases lt_trichotomy a.name b.name with h | h | h
    · simp [h, le_of_lt h]
    · have h1 : ¬ a.name < b.name := by rw [h]; exact lt_irrefl _
      simp [h1, h, le_of_eq h]
    · have h1 : ¬ a.name < b.name := asymm h
      have h2 : a.name ≠ b.name := (ne_of_lt h).symm
      have h3 : ¬ a.name ≤ b.name := not_le_of_lt h
      simp [h1, h2, h3]

theorem entries_trans (a b c : FileEntry)
    (h1 : decide (entryCmp a b ≤ 0) = true)
    (h2 : decide (entryCmp b c ≤ 0) = true) :
    decide (entryCmp a c ≤ 0) = true := by
  simp only [decide_eq_true_eq] at h1 h2 ⊢
  rw [entryCmp_le_iff] at h1 h2 ⊢
  rcases h1 with h1 | ⟨h1, h1n⟩ <;> rcases h2 with h2 | ⟨h2, h2n⟩
  · exact Or.inl (by omega)
  · exact Or.inl (by omega)
  · exact Or.inl (by omega)
  · exact Or.inr ⟨by omega, le_trans h1n h2n⟩

theorem entries_total (a b : FileEntry) :
    (decide (entryCmp a b ≤ 0) || decide (entryCmp b a ≤ 0)) = true := by
  simp only [Bool.or_eq_true, decide_eq_true_eq]
  rw [entryCmp_le_iff, entryCmp_le_iff]
  rcases Nat.lt_trichotomy (rankOf a.type) (rankOf b.type) with h | h | h
  · exact Or.inl (Or.inl h)
  · rcases le_total a.name b.name with hn | hn
    · exact Or.inl (Or.inr ⟨h, hn⟩)
    · exact Or.inr (Or.inr ⟨h.symm, hn⟩)
  · exact Or.inr (Or.inl h)

/-- C7 counterexample: the server order [f (file), d (directory)] is not
kept by the display (the sort puts the directory first), so the file tree
does impose a client-side ordering. -/
theorem file_order_counterexample :
    displayedEntries [{ name := "f", type := EntryType.file },
        { name := "d", type := EntryType.directory }] ≠
      [{ name := "f", type := EntryType.file },
       { name := "d", type := EntryType.directory }] := by
  intro hEq
  have h := List.sorted_mergeSort entries_trans entries_total
    [{ name := "f", type := EntryType.file },
     { name := "d", type := EntryType.directory }]
  have hshow : List.mergeSort
      [{ name := "f", type := EntryType.file },
       { name := "d", type := EntryType.directory }]
      (fun a b => decide (entryCmp a b ≤ 0)) =
      displayedEntries [{ name := "f", type := EntryType.file },
        { name := "d", type := EntryType.directory }] := rfl
  rw [hshow, hEq] at h
  have hle := (List.pairwise_cons.mp h).1
    { name := "d", type := EntryType.directory } (by simp)
  simp only [entryCmp, localeCompare] at hle
  simp at hle

/-- C7 amended: FileEntry lists are DTOs mirrored from the remote API, but
the tree does impose a client-side ordering: each /api/file/list response is
displayed as a permutation of the returned entries sorted by the client
comparator, directories before files and then by name. -/
theorem file_entries_client_sorted (entries : List FileEntry) :
    (displayedEntries entries).Perm entries ∧
    (displayedEntries entries).Pairwise fun a b => entryCmp a b ≤ 0 := by
  constructor
  · exact List.mergeSort_perm entries _
  · have h := List.sorted_mergeSort entries_trans entries_total entries
    exact h.imp fun hab => by simpa using hab

/-! ### C3: message grouping in the chat transcript -/

/-- JS String.prototype.toLowerCase, mapped over the code points (the tool
names compared here are plain ASCII). -/
def jsToLower (s : String) : String :=
  String.mk (s.toList.map Char.toLower)

/-- fileToolKind from src/unnamed/part_003: only tool_result and tool_denied
messages have a kind, derived from the lowercased tool name. -/
def fileToolKind (m : Message) : Option String :=
  if m.role ≠ "tool_result" ∧ m.role ≠ "tool_denied" then none
  else
    match m.toolName with
    | none => none
    | some n =>
        if jsToLower n = "file_read" ∨ jsToLower n = "read" then some "Read"
        else if jsToLower n = "file_write" ∨ jsToLower n = "write" then some "Write"
        else if jsToLower n = "file_edit" ∨ jsToLower n = "edit" then some "Edit"
        else none

/-- Condition of the inner while loop of filterLevel2: the message has the
same file-tool kind as the run being collected. -/
def sameKind (k : String) (m : Message) : Bool :=
  decide (fileToolKind m = some k)

/-- Display items produced by the grouping passes of src/unnamed/part_003. -/
inductive DisplayItem where
  | message (m : Message) (index : Nat)
  | toolSummary (count : Nat) (index : Nat)
  | fileTools (kind : String) (messages : List Message) (startIndex : Nat)
deriving DecidableEq, Repr

/-- filterLevel2 from src/unnamed/part_003 with the position index threaded
through: a run of same-kind file-tool messages is collected; it becomes one
fileTools item when it has at least two members and stays a single message
item otherwise; any other message stays a single item. -/
def filterLevel2Aux (i : Nat) (ms : List Message) : List DisplayItem :=
  match ms with
  | [] => []
  | m :: rest =>
    match fileToolKind m with
    | some k =>
        (if 2 ≤ (m :: rest.takeWhile (sameKind k)).length then
          DisplayItem.fileTools k (m :: rest.takeWhile (sameKind k)) i
         else DisplayItem.message m i) ::
          filterLevel2Aux (i + (m :: rest.takeWhile (sameKind k)).length)
            (rest.dropWhile (sameKind k))
    | none => DisplayItem.message m i :: filterLevel2Aux (i + 1) rest
termination_by ms.length
decreasing_by
  · simp
    have := (List.dropWhile_sublist (l := rest) (p := sameKind k)).length_le
    omega
  · simp

/-- filterLevel2 starts at index 0. -/
def filterLevel2 (ms : List Message) : List DisplayItem :=
  filterLevel2Aux 0 ms

/-- Messages carried by the display items, in display order. -/
def itemsFlatten : List DisplayItem → List Message
  | [] => []
  | DisplayItem.message m _ :: rest => m :: itemsFlatten rest
  | DisplayItem.toolSummary _ _ :: rest => itemsFlatten rest
  | DisplayItem.fileTools _ ms _ :: rest => ms ++ itemsFlatten rest

/-- Shape of one filterLevel2 item: a fileTools group holds at least two
messages, all of the kind it is labelled with. -/
def itemWF : DisplayItem → Prop
  | DisplayItem.message _ _ => True
  | DisplayItem.toolSummary _ _ => True
  | DisplayItem.fileTools k ms _ => 2 ≤ ms.length ∧ ∀ m ∈ ms, fileToolKind m = some k

/-- File-tool kind at the first message of an item. -/
def itemHeadKind : DisplayItem → Option String
  | DisplayItem.message m _ => fileToolKind m
  | DisplayItem.toolSummary _ _ => none
  | DisplayItem.fileTools k _ _ => some k

/-- File-tool kind at the last message of an item. -/
def itemLastKind : DisplayItem → Option String
  | DisplayItem.message m _ => fileToolKind m
  | DisplayItem.toolSummary _ _ => none
  | DisplayItem.fileTools k _ _ => some k

/-- Maximality of the runs: adjacent display items never continue one
file-tool kind across their boundary. -/
def separated (a b : DisplayItem) : Prop :=
  ∀ k, itemLastKind a = some k → itemHeadKind b ≠ some k

theorem filterLevel2Aux_nil (i : Nat) : filterLevel2Aux i [] = [] := by
  rw [filterLevel2Aux]

theorem filterLevel2Aux_cons_some (i : Nat) (m : Message) (rest : List Message)
    (k : String) (hk : fileToolKind m = some k) :
    filterLevel2Aux i (m :: rest) =
      (if 2 ≤ (m :: rest.takeWhile (sameKind k)).length then
        DisplayItem.fileTools k (m :: rest.takeWhile (sameKind k)) i
       else DisplayItem.message m i) ::
        filterLevel2Aux (i + (m :: rest.takeWhile (sameKind k)).length)
          (rest.dropWhile (sameKind k)) := by
  conv_lhs => rw [filterLevel2Aux]
  rw [hk]

theorem filterLevel2Aux_cons_none (i : Nat) (m : Message) (rest : List Message)
    (hk : fileToolKind m = none) :
    filterLevel2Aux i (m :: rest) =
      DisplayItem.message m i :: filterLevel2Aux (i + 1) rest := by
  conv_lhs => rw [filterLevel2Aux]
  rw [hk]

theorem filterLevel2Aux_flatten (i : Nat) (ms : List Message) :
    itemsFlatten (filterLevel2Aux i ms) = ms := by
  induction i, ms using filterLevel2Aux.induct with
  | case1 i => simp [filterLevel2Aux_nil, itemsFlatten]
  | case2 i m rest k hk ih =>
      rw [filterLevel2Aux_cons_some i m rest k hk]
      have htd := List.takeWhile_append_dropWhile (p := sameKind k) (l := rest)
      by_cases hlen : 2 ≤ (m :: rest.takeWhile (sameKind k)).length
      · rw [if_pos hlen]
        simp only [itemsFlatten, List.cons_append]
        rw [ih, htd]
      · rw [if_neg hlen]
        have h0 : (rest.takeWhile (sameKind k)).length = 0 := by
          simp only [List.length_cons] at hlen
          omega
        have he : rest.takeWhile (sameKind k) = [] := List.length_eq_zero.mp h0
        have hd : rest.dropWhile (sameKind k) = rest := by
          rw [he] at htd
          simpa using htd
        simp only [itemsFlatten]
        rw [ih, hd]
  | case3 i m rest hk ih =>
      rw [filterLevel2Aux_cons_none i m rest hk]
      simp only [itemsFlatten]
      rw [ih]

theorem filterLevel2Aux_wf (i : Nat) (ms : List Message) :
    ∀ it ∈ filterLevel2Aux i ms, itemWF it := by
  induction i, ms using filterLevel2Aux.induct with
  | case1 i => simp [filterLevel2Aux_nil]
  | case2 i m rest k hk ih =>
      rw [filterLevel2Aux_cons_some i m rest k hk]
      intro it hit
      rcases List.mem_cons.mp hit with h | h
      · subst h
        by_cases hlen : 2 ≤ (m :: rest.takeWhile (sameKind k)).length
        · rw [if_pos hlen]
          refine ⟨hlen, ?_⟩
          intro x hx
          rcases List.mem_cons.mp hx with hx | hx
          · subst hx
            exact hk
          · have hsk := List.mem_takeWhile_imp hx
            simpa [sameKind] using hsk
        · rw [if_neg hlen]
          trivial
      · exact ih it h
  | case3 i m rest hk ih =>
      rw [filterLevel2Aux_cons_none i m rest hk]
      intro it hit
      rcases List.mem_cons.mp hit with h | h
      · subst h
        trivial
      · exact ih it h

/-- On a nonempty list, the first produced item starts with the kind of the
first message. -/
theorem filterLevel2Aux_headKind (i : Nat) (b : Message) (t : List Message) :
    ∃ it rest, filterLevel2Aux i (b :: t) = it :: rest ∧
      itemHeadKind it = fileToolKind b := by
  cases hk : fileToolKind b with
  | some k =>
      rw [filterLevel2Aux_cons_some i b t k hk]
      by_cases hlen : 2 ≤ (b :: t.takeWhile (sameKind k)).length
      · rw [if_pos hlen]
        exact ⟨_, _, rfl, by simp [itemHeadKind]⟩
      · rw [if_neg hlen]
        exact ⟨_, _, rfl, by simp [itemHeadKind, hk]⟩
  | none =>
      rw [filterLevel2Aux_cons_none i b t hk]
      exact ⟨_, _, rfl, by simp [itemHeadKind, hk]⟩

theorem filterLevel2Aux_chain (i : Nat) (ms : List Message) :
    List.Chain' separated (filterLevel2Aux i ms) := by
  induction i, ms using filterLevel2Aux.induct with
  | case1 i => simp [filterLevel2Aux_nil]
  | case2 i m rest k hk ih =>
      rw [filterLevel2Aux_cons_some i m rest k hk]
      rw [List.chain'_cons']
      refine ⟨?_, ih⟩
      intro y hy k2 hlast hhead
      have hk2 : k2 = k := by
        by_cases hc : 2 ≤ (m :: rest.takeWhile (sameKind k)).length
        · rw [if_pos hc] at hlast
          simpa [itemLastKind] using hlast.symm
        · rw [if_neg hc] at hlast
          simp only [itemLastKind, hk, Option.some.injEq] at hlast
          exact hlast.symm
      subst k2
      cases hdrop : rest.dropWhile (sameKind k) with
      | nil =>
          rw [hdrop] at hy
          rw [filterLevel2Aux_nil] at hy
          simp at hy
      | cons b t =>
          rw [hdrop] at hy
          obtain ⟨it, tl, heq, hkind⟩ :=
            filterLevel2Aux_headKind (i + (m :: rest.takeWhile (sameKind k)).length) b t
          rw [heq] at hy
          simp only [List.head?_cons, Option.mem_def, Option.some.injEq] at hy
          subst hy
          rw [hkind] at hhead
          have hb : sameKind k b = false := by
            have := List.head?_dropWhile_not (sameKind k) rest
            rw [hdrop] at this
            simpa using this
          rw [sameKind, decide_eq_false_iff_not] at hb
          exact hb hhead
  | case3 i m rest hk ih =>
      rw [filterLevel2Aux_cons_none i m rest hk]
      rw [List.chain'_cons']
      refine ⟨?_, ih⟩
      intro y hy k2 hlast hhead
      simp [itemLastKind, hk] at hlast

/-! The second grouping pass, groupMessages from MessageList.tsx, collapses
runs of consecutive file_read results. -/

/-- isFileReadResult from MessageList.tsx. -/
def isFileReadResult (m : Message) : Bool :=
  (m.role == "tool_result" || m.role == "tool_denied") &&
    m.toolName == some "file_read"

/-- Display groups produced by groupMessages. -/
inductive MessageGroup where
  | single (message : Message) (index : Nat)
  | fileReads (messages : List Message) (startIndex : Nat)
deriving DecidableEq, Repr

/-- groupMessages from MessageList.tsx with the position index threaded
through: runs of consecutive file_read results are batched; a batch of at
least two becomes one fileReads group, otherwise items stay single. -/
def groupMessagesAux (i : Nat) (ms : List Message) : List MessageGroup :=
  match ms with
  | [] => []
  | m :: rest =>
    if isFileReadResult m then
      (if 2 ≤ (m :: rest.takeWhile isFileReadResult).length then
        MessageGroup.fileReads (m :: rest.takeWhile isFileReadResult) i
       else MessageGroup.single m i) ::
        groupMessagesAux (i + (m :: rest.takeWhile isFileReadResult).length)
          (rest.dropWhile isFileReadResult)
    else MessageGroup.single m i :: groupMessagesAux (i + 1) rest
termination_by ms.length
decreasing_by
  · simp
    have := (List.dropWhile_sublist (l := rest) (p := isFileReadResult)).length_le
    omega
  · simp

/-- groupMessages starts at index 0. -/
def groupMessages (ms : List Message) : List MessageGroup :=
  groupMessagesAux 0 ms

/-- Messages carried by the groups, in display order. -/
def groupsFlatten : List MessageGroup → List Message
  | [] => []
  | MessageGroup.single m _ :: rest => m :: groupsFlatten rest
  | MessageGroup.fileReads ms _ :: rest => ms ++ groupsFlatten rest

/-- Shape of one group: a fileReads group holds at least two messages, all
of them file_read results. -/
def groupWF : MessageGroup → Prop
  | MessageGroup.single _ _ => True
  | MessageGroup.fileReads ms _ => 2 ≤ ms.length ∧ ∀ m ∈ ms, isFileReadResult m = true

/-- Whether the last message of a group is a file_read result. -/
def groupLastRead : MessageGroup → Bool
  | MessageGroup.single m _ => isFileReadResult m
  | MessageGroup.fileReads _ _ => true

/-- Whether the first message of a group is a file_read result. -/
def groupHeadRead : MessageGroup → Bool
  | MessageGroup.single m _ => isFileReadResult m
  | MessageGroup.fileReads _ _ => true

/-- Maximality for groupMessages: a file_read run never continues across the
boundary of adjacent groups. -/
def readSeparated (a b : MessageGroup) : Prop :=
  ¬(groupLastRead a = true ∧ groupHeadRead b = true)

theorem groupMessagesAux_nil (i : Nat) : groupMessagesAux i [] = [] := by
  rw [groupMessagesAux]

theorem groupMessagesAux_cons (i : Nat) (m : Message) (rest : List Message) :
    groupMessagesAux i (m :: rest) =
      if isFileReadResult m then
        (if 2 ≤ (m :: rest.takeWhile isFileReadResult).length then
          MessageGroup.fileReads (m :: rest.takeWhile isFileReadResult) i
         else MessageGroup.single m i) ::
          groupMessagesAux (i + (m :: rest.takeWhile isFileReadResult).length)
            (rest.dropWhile isFileReadResult)
      else MessageGroup.single m i :: groupMessagesAux (i + 1) rest := by
  conv_lhs => rw [groupMessagesAux]

theorem groupMessagesAux_flatten (i : Nat) (ms : List Message) :
    groupsFlatten (groupMessagesAux i ms) = ms := by
  induction i, ms using groupMessagesAux.induct with
  | case1 i => simp [groupMessagesAux_nil, groupsFlatten]
  | case2 i m rest hk ih =>
      rw [groupMessagesAux_cons, if_pos hk]
      have htd := List.takeWhile_append_dropWhile (p := isFileReadResult) (l := rest)
      by_cases hlen : 2 ≤ (m :: rest.takeWhile isFileReadResult).length
      · rw [if_pos hlen]
        simp only [groupsFlatten, List.cons_append]
        rw [ih, htd]
      · rw [if_neg hlen]
        have h0 : (rest.takeWhile isFileReadResult).length = 0 := by
          simp only [List.length_cons] at hlen
          omega
        have he : rest.takeWhile isFileReadResult = [] := List.length_eq_zero.mp h0
        have hd : rest.dropWhile isFileReadResult = rest := by
          rw [he] at htd
          simpa using htd
        simp only [groupsFlatten]
        rw [ih, hd]
  | case3 i m rest hk ih =>
      rw [groupMessagesAux_cons, if_neg hk]
      simp only [groupsFlatten]
      rw [ih]

theorem groupMessagesAux_wf (i : Nat) (ms : List Message) :
    ∀ g ∈ groupMessagesAux i ms, groupWF g := by
  induction i, ms using groupMessagesAux.induct with
  | case1 i => simp [groupMessagesAux_nil]
  | case2 i m rest hk ih =>
      rw [groupMessagesAux_cons, if_pos hk]
      intro g hg
      rcases List.mem_cons.mp hg with h | h
      · subst h
        by_cases hlen : 2 ≤ (m :: rest.takeWhile isFileReadResult).length
        · rw [if_pos hlen]
          refine ⟨hlen, ?_⟩
          intro x hx
          rcases List.mem_cons.mp hx with hx | hx
          · subst hx
            exact hk
          · exact List.mem_takeWhile_imp hx
        · rw [if_neg hlen]
          trivial
      · exact ih g h
  | case3 i m rest hk ih =>
      rw [groupMessagesAux_cons, if_neg hk]
      intro g hg
      rcases List.mem_cons.mp hg with h | h
      · subst h
        trivial
      · exact ih g h

/-- On a nonempty list, the first produced group starts with the file_read
status of the first message. -/
theorem groupMessagesAux_head (i : Nat) (b : Message) (t : List Message) :
    ∃ g rest, groupMessagesAux i (b :: t) = g :: rest ∧
      groupHeadRead g = isFileReadResult b := by
  rw [groupMessagesAux_cons]
  by_cases hk : isFileReadResult b
  · rw [if_pos hk]
    by_cases hlen : 2 ≤ (b :: t.takeWhile isFileReadResult).length
    · rw [if_pos hlen]
      exact ⟨_, _, rfl, by simp [groupHeadRead, hk]⟩
    · rw [if_neg hlen]
      exact ⟨_, _, rfl, by simp [groupHeadRead]⟩
  · rw [if_neg hk]
    exact ⟨_, _, rfl, by simp [groupHeadRead]⟩

theorem groupMessagesAux_chain (i : Nat) (ms : List Message) :
    List.Chain' readSeparated (groupMessagesAux i ms) := by
  induction i, ms using groupMessagesAux.induct with
  | case1 i => simp [groupMessagesAux_nil]
  | case2 i m rest hk ih =>
      rw [groupMessagesAux_cons, if_pos hk]
      rw [List.chain'_cons']
      refine ⟨?_, ih⟩
      intro y hy hpair
      obtain ⟨hlast, hhead⟩ := hpair
      cases hdrop : rest.dropWhile isFileReadResult with
      | nil =>
          rw [hdrop] at hy
          rw [groupMessagesAux_nil] at hy
          simp at hy
      | cons b t =>
          rw [hdrop] at hy
          obtain ⟨g, tl, heq, hkind⟩ :=
            groupMessagesAux_head (i + (m :: rest.takeWhile isFileReadResult).length) b t
          rw [heq] at hy
          simp only [List.head?_cons, Option.mem_def, Option.some.injEq] at hy
          subst hy
          rw [hkind] at hhead
          have hb : isFileReadResult b = false := by
            have := List.head?_dropWhile_not isFileReadResult rest
            rw [hdrop] at this
            simpa using this
          rw [hb] at hhead
          exact Bool.false_ne_true hhead
  | case3 i m rest hk ih =>
      rw [groupMessagesAux_cons, if_neg hk]
      rw [List.chain'_cons']
      refine ⟨?_, ih⟩
      intro y hy hpair
      obtain ⟨hlast, hhead⟩ := hpair
      simp only [groupLastRead] at hlast
      exact hk (by simpa using hlast)

/-- C3: both grouping passes are order- and content-preserving: flattening
the display items gives back exactly the input messages in order; every
fileTools or fileReads group holds at least two messages of its kind; and
runs are maximal, in that no same-kind run continues across the boundary of
two adjacent items. -/
theorem message_grouping_preserves (ms : List Message) :
    itemsFlatten (filterLevel2 ms) = ms ∧
    (∀ it ∈ filterLevel2 ms, itemWF it) ∧
    List.Chain' separated (filterLevel2 ms) ∧
    groupsFlatten (groupMessages ms) = ms ∧
    (∀ g ∈ groupMessages ms, groupWF g) ∧
    List.Chain' readSeparated (groupMessages ms) :=
  ⟨filterLevel2Aux_flatten 0 ms, filterLevel2Aux_wf 0 ms,
   filterLevel2Aux_chain 0 ms, groupMessagesAux_flatten 0 ms,
   groupMessagesAux_wf 0 ms, groupMessagesAux_chain 0 ms⟩

/-- A file_read tool result used to exercise the grouping. -/
def readDemo : Message :=
  { role := "tool_result", content := "data", toolName := some "file_read" }

theorem filterLevel2_demo :
    filterLevel2 [readDemo, readDemo] =
      [DisplayItem.fileTools "Read" [readDemo, readDemo] 0] := by
  have hk : fileToolKind readDemo = some "Read" := by decide
  have hsk : sameKind "Read" readDemo = true := by decide
  rw [filterLevel2, filterLevel2Aux, hk]
  simp only [List.takeWhile_cons, hsk, if_true, List.takeWhile_nil,
    List.dropWhile_cons, List.dropWhile_nil, List.length_cons,
    List.length_nil]
  rw [filterLevel2Aux]
  simp

/-- Witness for message_grouping_preserves: on two file_read results the
items flatten back to the input, and the produced group satisfies the group
shape conditions. -/
theorem message_grouping_preserves_witness :
    itemsFlatten (filterLevel2 [readDemo, readDemo]) = [readDemo, readDemo] ∧
    itemWF (DisplayItem.fileTools "Read" [readDemo, readDemo] 0) :=
  ⟨(message_grouping_preserves [readDemo, readDemo]).1,
   (message_grouping_preserves [readDemo, readDemo]).2.1
     (DisplayItem.fileTools "Read" [readDemo, readDemo] 0)
     (by rw [filterLevel2_demo]; exact List.mem_singleton.mpr rfl)⟩

/-! ### C9: calendar overlap layout

layoutOverlaps from the calendar viewer (the second half of
MessageBubble.tsx): the events are sorted by start then end while keeping
their original index, swept into overlap groups, and every member gets the
first column not used in its group; each group reports max column + 1 as its
column count.  JS numbers are modelled as rationals: the algorithm only
compares and maxes them, and comparison of finite doubles agrees with the
rational order. -/

/-- Calendar event reduced to its numeric start and end; the field stop
models the end field of the source (end is reserved in Lean). -/
structure CalEvent where
  start : Rat
  stop : Rat
deriving DecidableEq, Repr

/-- An event paired with its original index, as built by the initial map. -/
structure IdxEvent where
  ev : CalEvent
  idx : Nat
deriving DecidableEq, Repr

/-- Comparator (a, b) => a.start - b.start || a.end - b.end, as the predicate
holding when the comparator is nonpositive. -/
def evLE (a b : IdxEvent) : Bool :=
  decide (a.ev.start < b.ev.start ∨
    (a.ev.start = b.ev.start ∧ a.ev.stop ≤ b.ev.stop))

/-- events.map((e, i) => ({...e, idx: i})).sort(...): stable sort modelled
with mergeSort. -/
def sortedEvents (events : List CalEvent) : List IdxEvent :=
  (events.enum.map fun p => { ev := p.2, idx := p.1 }).mergeSort evLE

/-- One member of an overlap group: original index and assigned column. -/
structure GMember where
  idx : Nat
  col : Nat
deriving DecidableEq, Repr

/-- One overlap group of the sweep. -/
structure EvGroup where
  gstart : Rat
  gend : Rat
  members : List GMember
deriving DecidableEq, Repr

/-- The while loop while (usedCols.has(col)) col++, bounded by one more than
the number of used columns; the unbounded JS loop stops within that bound
because some column among 0..used.length is always free. -/
def firstFreeCol (used : List Nat) : Nat → Nat → Nat
  | 0, col => col
  | fuel + 1, col => if col ∈ used then firstFreeCol used fuel (col + 1) else col

/-- First free column starting from 0. -/
def mexCol (used : List Nat) : Nat :=
  firstFreeCol used (used.length + 1) 0

/-- Mutation applied to the chosen group: extend its end to cover the event
and push the member with the first free column.  The filter on usedCols in
the source (events[m.idx] truthy and m.col >= 0) always holds: indexes are in
range and columns are naturals. -/
def addToGroup (g : EvGroup) (e : IdxEvent) : EvGroup :=
  { g with gend := max g.gend e.ev.stop,
           members := g.members ++
             [{ idx := e.idx, col := mexCol (g.members.map GMember.col) }] }

/-- groups.find(g => ev.start < g.end) mutates the first overlapping group in
place; without one a fresh group holding only this event is pushed at the
back (its end and first member are set right after creation, as addToGroup
does). -/
def insertEvent : List EvGroup → IdxEvent → List EvGroup
  | [], e => [addToGroup { gstart := e.ev.start, gend := e.ev.stop, members := [] } e]
  | g :: gs, e =>
      if e.ev.start < g.gend then addToGroup g e :: gs
      else g :: insertEvent gs e

/-- The sweep over the sorted events. -/
def buildGroups (sorted : List IdxEvent) : List EvGroup :=
  sorted.foldl insertEvent []

/-- The layout entry written into the result array. -/
structure LayoutInfo where
  col : Nat
  totalCols : Nat
deriving DecidableEq, Repr

/-- Math.max(...group.members.map(m => m.col)) + 1.  Groups always carry at
least one member, so the fold from 0 agrees with the spread max. -/
def groupTotalCols (g : EvGroup) : Nat :=
  (g.members.map GMember.col).foldl max 0 + 1

/-- result[m.idx] = { col: m.col, totalCols }: look the original index up
across the groups. -/
def lookupLayout (groups : List EvGroup) (i : Nat) : Option LayoutInfo :=
  groups.findSome? fun g =>
    (g.members.find? fun mem => mem.idx == i).map
      fun mem => { col := mem.col, totalCols := groupTotalCols g }

/-- layoutOverlaps: the result array indexed by original position; none
models a hole of the JS array new Array(n). -/
def layoutOverlaps (events : List CalEvent) : List (Option LayoutInfo) :=
  (List.range events.length).map (lookupLayout (buildGroups (sortedEvents events)))

/-- The bounded column search never lands on a used column, provided a free
column exists within the remaining fuel. -/
theorem firstFreeCol_not_mem (used : List Nat) :
    ∀ (fuel col : Nat), (∃ c, col ≤ c ∧ c < col + fuel ∧ c ∉ used) →
      firstFreeCol used fuel col ∉ used := by
  intro fuel
  induction fuel with
  | zero =>
      intro col hex
      obtain ⟨c, h1, h2, _⟩ := hex
      omega
  | succ fuel ih =>
      intro col hex
      obtain ⟨c, h1, h2, h3⟩ := hex
      rw [firstFreeCol]
      by_cases hcol : col ∈ used
      · rw [if_pos hcol]
        apply ih
        refine ⟨c, ?_, by omega, h3⟩
        rcases Nat.eq_or_lt_of_le h1 with he | hlt
        · exact absurd (he ▸ hcol) h3
        · omega
      · rw [if_neg hcol]
        exact hcol

/-- Pigeonhole: among the columns 0..used.length one is unused. -/
theorem exists_free_col (used : List Nat) :
    ∃ c, c ≤ used.length ∧ c ∉ used := by
  by_contra hall
  push_neg at hall
  have hsub : Finset.range (used.length + 1) ⊆ used.toFinset := by
    intro c hc
    rw [Finset.mem_range] at hc
    rw [List.mem_toFinset]
    exact hall c (by omega)
  have h1 := Finset.card_le_card hsub
  rw [Finset.card_range] at h1
  have h2 := List.toFinset_card_le used
  omega

theorem mexCol_not_mem (used : List Nat) : mexCol used ∉ used := by
  obtain ⟨c, hc1, hc2⟩ := exists_free_col used
  exact firstFreeCol_not_mem used (used.length + 1) 0 ⟨c, Nat.zero_le c, by omega, hc2⟩

/-- Invariant: the columns inside one group stay pairwise distinct. -/
def groupColsOK (g : EvGroup) : Prop :=
  (g.members.map GMember.col).Nodup

theorem addToGroup_colsOK (g : EvGroup) (e : IdxEvent) (h : groupColsOK g) :
    groupColsOK (addToGroup g e) := by
  unfold groupColsOK addToGroup
  unfold groupColsOK at h
  simp only [List.map_append, List.map_cons, List.map_nil]
  rw [List.nodup_append]
  refine ⟨h, List.nodup_singleton _, ?_⟩
  intro a ha hb
  rw [List.mem_singleton] at hb
  subst hb
  exact mexCol_not_mem _ ha

theorem insertEvent_colsOK :
    ∀ (groups : List EvGroup) (e : IdxEvent),
      (∀ g ∈ groups, groupColsOK g) → ∀ g ∈ insertEvent groups e, groupColsOK g := by
  intro groups
  induction groups with
  | nil =>
      intro e _ g hg
      simp only [insertEvent, List.mem_singleton] at hg
      subst hg
      apply addToGroup_colsOK
      simp [groupColsOK]
  | cons g0 gs ih =>
      intro e hall g hg
      rw [insertEvent] at hg
      by_cases hov : e.ev.start < g0.gend
      · rw [if_pos hov] at hg
        rcases List.mem_cons.mp hg with h | h
        · subst h
          exact addToGroup_colsOK _ _ (hall g0 (List.mem_cons_self _ _))
        · exact hall g (List.mem_cons_of_mem _ h)
      · rw [if_neg hov] at hg
        rcases List.mem_cons.mp hg with h | h
        · rw [h]
          exact hall g0 (List.mem_cons_self _ _)
        · exact ih e (fun x hx => hall x (List.mem_cons_of_mem _ hx)) g h

theorem buildGroups_colsOK (sorted : List IdxEvent) :
    ∀ g ∈ buildGroups sorted, groupColsOK g := by
  suffices h : ∀ acc, (∀ g ∈ acc, groupColsOK g) →
      ∀ g ∈ sorted.foldl insertEvent acc, groupColsOK g by
    exact h [] (by simp)
  induction sorted with
  | nil =>
      intro acc hacc
      simpa using hacc
  | cons e rest ih =>
      intro acc hacc
      rw [List.foldl_cons]
      exact ih (insertEvent acc e) (insertEvent_colsOK acc e hacc)

/-- Original indexes collected across the groups, in group order. -/
def allIdxs : List EvGroup → List Nat
  | [] => []
  | g :: gs => g.members.map GMember.idx ++ allIdxs gs

theorem insertEvent_idxs (groups : List EvGroup) (e : IdxEvent) :
    (allIdxs (insertEvent groups e)).Perm (e.idx :: allIdxs groups) := by
  induction groups with
  | nil => simp [insertEvent, allIdxs, addToGroup]
  | cons g0 gs ih =>
      rw [insertEvent]
      by_cases hov : e.ev.start < g0.gend
      · rw [if_pos hov]
        simp only [allIdxs, addToGroup, List.map_append, List.map_cons,
          List.map_nil]
        rw [List.append_assoc]
        exact List.perm_middle
      · rw [if_neg hov]
        simp only [allIdxs]
        have h1 := ih.append_left (g0.members.map GMember.idx)
        refine h1.trans ?_
        exact List.perm_middle

theorem buildGroups_idxs (sorted : List IdxEvent) :
    (allIdxs (buildGroups sorted)).Perm (sorted.map IdxEvent.idx) := by
  suffices h : ∀ acc, (allIdxs (sorted.foldl insertEvent acc)).Perm
      (sorted.map IdxEvent.idx ++ allIdxs acc) by
    have h0 := h []
    simp only [allIdxs, List.append_nil] at h0
    exact h0
  induction sorted with
  | nil =>
      intro acc
      simp
  | cons e rest ih =>
      intro acc
      rw [List.foldl_cons, List.map_cons]
      refine (ih (insertEvent acc e)).trans ?_
      have h3 := (insertEvent_idxs acc e).append_left (rest.map IdxEvent.idx)
      refine h3.trans ?_
      exact List.perm_middle

theorem sortedEvents_idxs (events : List CalEvent) :
    ((sortedEvents events).map IdxEvent.idx).Perm (List.range events.length) := by
  unfold sortedEvents
  have hp := List.mergeSort_perm
    (events.enum.map fun p => ({ ev := p.2, idx := p.1 } : IdxEvent)) evLE
  refine (hp.map IdxEvent.idx).trans ?_
  rw [List.map_map]
  have hcomp : (IdxEvent.idx ∘ fun p : Nat × CalEvent =>
      ({ ev := p.2, idx := p.1 } : IdxEvent)) = Prod.fst := by
    funext p
    rfl
  rw [hcomp, List.enum_map_fst]

theorem mem_allIdxs {i : Nat} :
    ∀ {groups : List EvGroup},
      i ∈ allIdxs groups ↔ ∃ g ∈ groups, ∃ mem ∈ g.members, mem.idx = i := by
  intro groups
  induction groups with
  | nil => simp [allIdxs]
  | cons g gs ih =>
      simp only [allIdxs, List.mem_append, List.mem_map, ih, List.mem_cons]
      constructor
      · rintro (⟨mem, hmem, hidx⟩ | ⟨g2, hg2, hrest⟩)
        · exact ⟨g, Or.inl rfl, mem, hmem, hidx⟩
        · exact ⟨g2, Or.inr hg2, hrest⟩
      · rintro ⟨g2, hg2 | hg2, mem, hmem, hidx⟩
        · subst hg2
          exact Or.inl ⟨mem, hmem, hidx⟩
        · exact Or.inr ⟨g2, hg2, mem, hmem, hidx⟩

theorem lookupLayout_isSome {groups : List EvGroup} {i : Nat}
    (h : ∃ g ∈ groups, ∃ mem ∈ g.members, mem.idx = i) :
    lookupLayout groups i ≠ none := by
  obtain ⟨g, hg, mem, hmem, hidx⟩ := h
  intro hnone
  rw [lookupLayout, List.findSome?_eq_none_iff] at hnone
  have hng := hnone g hg
  cases hfind : g.members.find? fun x => x.idx == i with
  | some v =>
      rw [hfind] at hng
      simp at hng
  | none =>
      have := List.find?_eq_none.mp hfind mem hmem
      simp [hidx] at this

theorem lookupLayout_eq_some {groups : List EvGroup} {i : Nat} {li : LayoutInfo}
    (h : lookupLayout groups i = some li) :
    ∃ g ∈ groups, ∃ mem ∈ g.members, mem.idx = i ∧ mem.col = li.col ∧
      li.totalCols = groupTotalCols g := by
  rw [lookupLayout] at h
  obtain ⟨g, hg, hfg⟩ := List.exists_of_findSome?_eq_some h
  cases hfind : g.members.find? fun mem => mem.idx == i with
  | none =>
      rw [hfind] at hfg
      simp at hfg
  | some mem =>
      rw [hfind] at hfg
      simp only [Option.map_some', Option.some.injEq] at hfg
      have hmem := List.mem_of_find?_eq_some hfind
      have hidx := List.find?_some hfind
      refine ⟨g, hg, mem, hmem, by simpa using hidx, ?_, ?_⟩
      · rw [← hfg]
      · rw [← hfg]

theorem acc_le_foldl_max : ∀ (l : List Nat) (acc : Nat), acc ≤ l.foldl max acc := by
  intro l
  induction l with
  | nil => simp
  | cons a rest ih =>
      intro acc
      rw [List.foldl_cons]
      exact le_trans (le_max_left acc a) (ih (max acc a))

theorem mem_le_foldl_max (c : Nat) :
    ∀ (cols : List Nat), c ∈ cols → ∀ acc, c ≤ cols.foldl max acc := by
  intro cols
  induction cols with
  | nil => simp
  | cons a rest ih =>
      intro hc acc
      rw [List.foldl_cons]
      rcases List.mem_cons.mp hc with h | h
      · subst h
        exact le_trans (le_max_right acc c) (acc_le_foldl_max rest (max acc c))
      · exact ih h (max acc a)

theorem member_col_lt_total (g : EvGroup) (mem : GMember) (h : mem ∈ g.members) :
    mem.col < groupTotalCols g := by
  unfold groupTotalCols
  have hc : mem.col ∈ g.members.map GMember.col :=
    List.mem_map_of_mem GMember.col h
  have := mem_le_foldl_max mem.col (g.members.map GMember.col) hc 0
  omega

/-- C9: layoutOverlaps returns an entry for every input event; inside each
overlap group any two members carry distinct columns and every column is
below the group column count; and each produced entry is exactly the column
and the column count of the group member holding its index, so all events of
one group report the same totalCols. -/
theorem calendar_layout_invariant (events : List CalEvent) :
    (layoutOverlaps events).length = events.length ∧
    (∀ i, i < events.length →
      ∃ li, (layoutOverlaps events)[i]? = some (some li)) ∧
    (∀ g ∈ buildGroups (sortedEvents events),
      g.members.Pairwise (fun m1 m2 => m1.col ≠ m2.col) ∧
      ∀ mem ∈ g.members, mem.col < groupTotalCols g) ∧
    (∀ (i : Nat) (li : LayoutInfo), (layoutOverlaps events)[i]? = some (some li) →
      ∃ g ∈ buildGroups (sortedEvents events), ∃ mem ∈ g.members,
        mem.idx = i ∧ mem.col = li.col ∧ li.totalCols = groupTotalCols g) := by
  have hperm : (allIdxs (buildGroups (sortedEvents events))).Perm
      (List.range events.length) :=
    (buildGroups_idxs (sortedEvents events)).trans (sortedEvents_idxs events)
  refine ⟨?_, ?_, ?_, ?_⟩
  · simp [layoutOverlaps]
  · intro i hi
    have hmemrange : i ∈ List.range events.length := List.mem_range.mpr hi
    have hmemidx : i ∈ allIdxs (buildGroups (sortedEvents events)) :=
      hperm.mem_iff.mpr hmemrange
    have hex := mem_allIdxs.mp hmemidx
    have hne := lookupLayout_isSome hex
    obtain ⟨li, hli⟩ := Option.ne_none_iff_exists.mp hne
    refine ⟨li, ?_⟩
    rw [layoutOverlaps, List.getElem?_map, List.getElem?_range hi]
    simp [← hli]
  · intro g hg
    have hcols := buildGroups_colsOK (sortedEvents events) g hg
    constructor
    · unfold groupColsOK at hcols
      have := (List.pairwise_map (l := g.members) (f := GMember.col)
        (R := fun a b => a ≠ b)).mp hcols
      exact this
    · intro mem hmem
      exact member_col_lt_total g mem hmem
  · intro i li hli
    rw [layoutOverlaps, List.getElem?_map] at hli
    cases hrange : (List.range events.length)[i]? with
    | none =>
        rw [hrange] at hli
        simp at hli
    | some j =>
        rw [hrange] at hli
        simp only [Option.map_some', Option.some.injEq] at hli
        have hj : j = i := by
          have hlen : i < events.length := by
            by_contra hcon
            rw [List.getElem?_eq_none] at hrange
            · exact Option.noConfusion hrange
            · simpa using hcon
          rw [List.getElem?_range hlen] at hrange
          exact (Option.some.inj hrange).symm
        subst hj
        exact lookupLayout_eq_some hli

/-- Witness for calendar_layout_invariant at two overlapping events: the
entries exist and satisfy the group bound at index 0. -/
theorem calendar_layout_invariant_witness :
    (0 : Nat) < ([⟨0, 2⟩, ⟨1, 3⟩] : List CalEvent).length ∧
    ∃ li, (layoutOverlaps [⟨0, 2⟩, ⟨1, 3⟩])[0]? = some (some li) :=
  ⟨by decide,
   (calendar_layout_invariant [⟨0, 2⟩, ⟨1, 3⟩]).2.1 0 (by decide)⟩

end YAgent
